import Mathlib

/-!
Verification of the private-blockchain star registry (`src/blockchain.js`).

Shallow embedding of the `Blockchain` class of `src/src/blockchain.js` and of
the parts of the `Block` class it uses.  The repository requires
`./block.js`, which is absent from the sources; the `Block` constructor,
`getBData` and `validate` are therefore modelled from the spec (each such
definition is marked `Modelled from the spec:`).

Modelling conventions:
* JS numbers that hold chain heights are modelled as `Int` (the ledger height
  starts at `-1`).
* The `time` field is stored by the source as a *string*
  (`new Date().getTime().toString().slice(0, -3)`); since one claim is about
  the runtime type of this field, `time` is modelled as a dynamically typed
  JS value (`JsVal`).
* `SHA256(JSON.stringify(block))` is modelled as an abstract digest
  `sha : Block → String` over the block's fields: `JSON.stringify` of a block
  is determined by the block's field values, so the composite is a function
  of the `Block` value at hashing time.  All theorems hold for every `sha`.
* `bitcoinMessage.verify` is modelled as an abstract
  `verify : String → String → String → Bool` (message, address, signature).
* The current clock reading `new Date().getTime()` (milliseconds) is passed
  explicitly as a `now : Nat` argument to every operation that reads it.
* A `Promise` that always resolves is modelled as a plain value; `submitStar`,
  which can either resolve with the block or reject with `null`, returns an
  `Option Block` (`none` is the single rejection value `rej(null)`).
-/

namespace StarRegistry

/-- A dynamically typed JavaScript value, used for the `time` field whose
runtime type (string vs number) matters for the spec's data model. -/
inductive JsVal where
  | num (n : Int)
  | str (s : String)
  | null
deriving DecidableEq, Repr

/-- Modelled from the spec: the Record payload is "a tagged variant with
exactly two cases, `Genesis(marker)` and `Claim{owner, star}`" (§3, §9);
`block.js` is absent from the sources.  `encode`/`decode` are a reversible
opaque encoding (`decode (encode x) = x`, §4.1/§6), so the payload is
represented directly by its decoded value.  Star attributes are opaque to the
core and are modelled by their encoded text. -/
inductive BData where
  | strData (s : String)
  | claim (owner : String) (star : String)
deriving DecidableEq, Repr

/-- The fields of a `Block` from `block.js`, as used by `blockchain.js`:
`hash` (null until sealed), `height`, the encoded payload `body`, `time`,
and `previousBlockHash` (null for genesis). -/
structure Block where
  hash : Option String
  height : Int
  body : BData
  time : JsVal
  previousBlockHash : Option String
deriving DecidableEq, Repr

/-- Modelled from the spec: the `Block` constructor (`block.js` is absent
from the sources).  A fresh Record carries the encoded payload; `hash` and
`previousBlockHash` are null and the positional metadata is unset until the
sealing operation assigns it (§3: `hash` is computed at seal time,
`previousHash` is null/absent until linked). -/
def Block.new (d : BData) : Block :=
  { hash := none, height := 0, body := d, time := .num 0, previousBlockHash := none }

/-- Modelled from the spec: `Block.getBData` (`block.js` is absent from the
sources) decodes the Record's payload back to the exact original data
(`decode (encode x) = x`, §4.1/§6).  `blockchain.js` destructures the result
as `const { data } = await block.getBData()`; the modelled value is that
`data` field. -/
def Block.getBData (b : Block) : BData := b.body

/-- The ledger state: `this.chain` and the cached `this.height`. -/
structure Blockchain where
  chain : List Block
  height : Int
deriving Repr

/-- Constant `FIVE_MINUTES_UTC = 30_000` of (blockchain.js line 15).  Note the
value: 30 000, while the time unit used throughout the file is seconds. -/
def FIVE_MINUTES_UTC : Int := 30000

/-- Model of `new Date().getTime().toString().slice(0, -3)`: the decimal string of the
millisecond clock reading with its last three characters removed.  (Written
over the character list so that it evaluates inside the kernel.) -/
def msToSecString (nowMs : Nat) : String :=
  ⟨(Nat.repr nowMs).data.take ((Nat.repr nowMs).data.length - 3)⟩

/-- JavaScript `parseInt` applied to a string: skip leading whitespace, an
optional sign, then the longest prefix of decimal digits; `none` models
`NaN` (no digit found).  Any arithmetic comparison against `NaN` is false,
which the callers below encode by treating `none` as a failed comparison.
(Written over the character list so that it evaluates inside the kernel.) -/
def parseIntJs (s : String) : Option Int :=
  let cs := s.data.dropWhile (fun c => c.isWhitespace)
  let (sign, ds) : Int × List Char :=
    match cs with
    | '-' :: rest => (-1, rest)
    | '+' :: rest => (1, rest)
    | _ => (1, cs)
  let digits := ds.takeWhile (fun c => c.isDigit)
  if digits.isEmpty then none
  else
    some (sign *
      ((digits.foldl (fun acc c => 10 * acc + (c.toNat - 48)) 0 : Nat) : Int))

/-- Helper for `jsSplit`: split a character list at every separator,
accumulating the current field in reverse. -/
def splitOnCharAux (sep : Char) : List Char → List Char → List (List Char)
  | [], acc => [acc.reverse]
  | c :: cs, acc =>
    if c = sep then acc.reverse :: splitOnCharAux sep cs []
    else splitOnCharAux sep cs (c :: acc)

/-- JavaScript `string.split(sep)` for a one-character separator, as used by
`message.split(":")`.  (Written over the character list so that it evaluates
inside the kernel.) -/
def jsSplit (sep : Char) (s : String) : List String :=
  (splitOnCharAux sep s.data []).map (fun l => ⟨l⟩)

/-- Method `_addBlock(block)` (blockchain.js lines 65–81): if the ledger height is
`-1` the block becomes the genesis block (height 1, `previousBlockHash`
untouched); otherwise the ledger height is pre-incremented, assigned as the
block height, and `previousBlockHash` is set to the hash of the last chain
element.  Then `time` is assigned (seconds string) and `hash` is set to the
digest of the block's fields as they stand at that point (its `hash` field
still holding its pre-seal value).  Finally the block is pushed.  Returns the
new state together with the resolved block. -/
def _addBlock (sha : Block → String) (nowMs : Nat) (s : Blockchain)
    (block : Block) : Blockchain × Block :=
  let (b1, h1) : Block × Int :=
    if s.height = -1 then
      ({ block with height := 1 }, 1)
    else
      ({ block with
          height := s.height + 1,
          previousBlockHash := (s.chain.getLast?).bind (fun b => b.hash) },
        s.height + 1)
  let b2 := { b1 with time := JsVal.str (msToSecString nowMs) }
  let b3 := { b2 with hash := some (sha b2) }
  ({ chain := s.chain ++ [b3], height := h1 }, b3)

/-- Method `initializeChain()` (blockchain.js lines 26–42 region): if the height is
`-1`, seal and append `new Block({ data: "Genesis Block" })`. -/
def initializeChain (sha : Block → String) (nowMs : Nat) (s : Blockchain) :
    Blockchain :=
  if s.height = -1 then
    (_addBlock sha nowMs s (Block.new (.strData "Genesis Block"))).1
  else s

/-- The `Blockchain` constructor: `chain = []`, `height = -1`, then
`initializeChain()`. -/
def Blockchain.mkNew (sha : Block → String) (nowMs : Nat) : Blockchain :=
  initializeChain sha nowMs { chain := [], height := -1 }

/-- Method `requestMessageOwnershipVerification(address)`:
`` `${address}:${seconds}:starRegistry` ``. -/
def requestMessageOwnershipVerification (nowMs : Nat) (address : String) :
    String :=
  address ++ ":" ++ msToSecString nowMs ++ ":starRegistry"

/-- Method `submitStar(address, message, signature, star)` (blockchain.js lines
120–140): parse the timestamp out of the message (`message.split(":")[1]`),
parse the current time in seconds, and when
`currentTime - messageTimeStamp < FIVE_MINUTES_UTC` and the signature
verifies, seal and append `new Block({ data: { star, owner: address } })`
and resolve with it; otherwise reject with `null` (modelled as `none`).
A `NaN` on either side of the comparison makes it false (rejection). -/
def submitStar (sha : Block → String)
    (verify : String → String → String → Bool) (nowMs : Nat)
    (s : Blockchain) (address message signature star : String) :
    Blockchain × Option Block :=
  match parseIntJs ((jsSplit ':' message).getD 1 ""),
      parseIntJs (msToSecString nowMs) with
  | some mt, some ct =>
    if ct - mt < FIVE_MINUTES_UTC ∧ verify message address signature then
      let r := _addBlock sha nowMs s (Block.new (.claim address star))
      (r.1, some r.2)
    else (s, none)
  | _, _ => (s, none)

/-- Method `getBlockByHash(hash)` (blockchain.js lines 148–154):
`self.chain.find((b) => b.hash === hash)`, resolving with `null`
(here `none`) when no block matches. -/
def getBlockByHash (s : Blockchain) (hash : String) : Option Block :=
  s.chain.find? (fun b => decide (b.hash = some hash))

/-- Method `getBlockByHeight(height)` (blockchain.js lines 161–167):
`self.chain.find((b) => b.height === height)`, resolving with `null`
(here `none`) when no block matches. -/
def getBlockByHeight (s : Blockchain) (height : Int) : Option Block :=
  s.chain.find? (fun b => decide (b.height = height))

/-- Method `getStarsByWalletAddress(address)` (blockchain.js lines 175–191): for
each block of the chain, decode its data; skip it when the decoded data is a
string (the genesis block); otherwise push `star` whenever `owner` equals
the requested address.  Collection order is chain order. -/
def getStarsByWalletAddress (s : Blockchain) (address : String) :
    List String :=
  s.chain.filterMap (fun block =>
    match block.getBData with
    | .strData _ => none
    | .claim owner star => if owner = address then some star else none)

/-- An entry of the `errorLog` produced by `validateChain`:
`{ hash: currentBlock.hash, valid: false }`. -/
structure ErrorEntry where
  hash : Option String
  valid : Bool
deriving DecidableEq, Repr

/-- The body of one iteration of the `validateChain` loop (blockchain.js
lines 199–233) at index `i`, wrapped in `try { … } catch { … }`:
the per-block `currentBlock.validate()` call is passed in as
`validateB : Block → Except Unit Bool` (`.error ()` models a throw — the
claim under verification quantifies over arbitrary failures of the
per-block step, and `validate` itself lives in the absent `block.js`).
Returns `some entry` when the iteration pushes an error entry, `none`
otherwise.  When the block is valid but not genesis-shaped and `i = 0`,
the source reads `self.chain[-1].hash`, which throws and is caught,
producing an entry. -/
def blockEntry (validateB : Block → Except Unit Bool) (chain : List Block)
    (i : Nat) : Option ErrorEntry :=
  match chain[i]? with
  | none => none
  | some cur =>
    match validateB cur with
    | .error _ => some ⟨cur.hash, false⟩
    | .ok valid =>
      if valid then
        if cur.previousBlockHash = none ∧ cur.height = 1 then none
        else if i = 0 then some ⟨cur.hash, false⟩
        else
          match chain[i - 1]? with
          | some prev =>
            if cur.previousBlockHash ≠ prev.hash ∨
                cur.height ≠ prev.height + 1 then
              some ⟨cur.hash, false⟩
            else none
          | none => none
      else some ⟨cur.hash, false⟩

/-- Method `validateChain()` (blockchain.js lines 199–233): run the loop body at
every index `0 ≤ i < chain.length`, accumulating the pushed error entries in
order, and resolve with the accumulated list. -/
def validateChain (validateB : Block → Except Unit Bool) (s : Blockchain) :
    List ErrorEntry :=
  (List.range s.chain.length).filterMap (blockEntry validateB s.chain)

/-- The spec's own description of `listStarsByOwner` (§4.2): "skips the
genesis Record (its payload is not a claim), decodes each remaining Record's
payload, and collects `star` where `owner == address`, preserving chain
order (ascending height)."  The genesis Record is the first Record of the
chain. -/
def listStarsByOwnerSpec (s : Blockchain) (address : String) : List String :=
  (s.chain.drop 1).filterMap (fun block =>
    match block.getBData with
    | .strData _ => none
    | .claim owner star => if owner = address then some star else none)

/-- The digest stored by the sealing operation, as a function of the
Record's non-`hash` fields only: the digest input is the block value with
the `hash` field null (its value at seal time). -/
def sealDigest (sha : Block → String) (height : Int) (body : BData)
    (time : JsVal) (prev : Option String) : String :=
  sha { hash := none, height := height, body := body, time := time,
        previousBlockHash := prev }

/-- States reachable through the sealing/append primitive alone: the fresh
`{ chain: [], height: -1 }` state, and any `_addBlock` step on a freshly
constructed block (every call site of `_addBlock` in the source passes
`new Block(…)`). -/
inductive Reachable (sha : Block → String) : Blockchain → Prop where
  | init : Reachable sha { chain := [], height := -1 }
  | step (nowMs : Nat) (d : BData) (s : Blockchain) :
      Reachable sha s →
      Reachable sha (_addBlock sha nowMs s (Block.new d)).1

/-- A concrete digest function used to evaluate the model on closed inputs
(standing in for `SHA256 ∘ JSON.stringify`, whose exact value no claim
depends on). -/
def shaTest (b : Block) : String :=
  "h" ++ toString b.height ++ "#" ++
    (match b.previousBlockHash with | some h => h | none => "null") ++ "#" ++
    (match b.body with
     | .strData s => "s:" ++ s
     | .claim o st => "c:" ++ o ++ ":" ++ st)

/-- The inductive invariant of chains built solely through `_addBlock`:
the uninitialized state has an empty chain; otherwise the cached height is
the chain length, every block at index `i` is sealed (`hash` set) with
height `i + 1`, the first block has a null `previousBlockHash`, and every
later block's `previousBlockHash` is the stored hash of its predecessor. -/
def ChainInv (s : Blockchain) : Prop :=
  (s.height = -1 → s.chain = []) ∧
  (s.height ≠ -1 → s.height = (s.chain.length : Int) ∧ s.chain ≠ []) ∧
  (∀ (i : Nat) (b : Block), s.chain[i]? = some b →
      b.height = (i : Int) + 1 ∧ b.hash.isSome = true ∧
      (i = 0 → b.previousBlockHash = none)) ∧
  (∀ (i : Nat) (b b' : Block), s.chain[i]? = some b → s.chain[i + 1]? = some b' →
      b'.previousBlockHash = b.hash)

/-- Index `i` of the chain passes all of `validateChain`'s checks: the
per-block validation returns `true` without throwing, and the block is
either genesis-shaped (null `previousBlockHash` and height 1) or at a
positive index and correctly linked to its predecessor. -/
def okAt (validateB : Block → Except Unit Bool) (chain : List Block)
    (i : Nat) : Prop :=
  ∃ b, chain[i]? = some b ∧ validateB b = .ok true ∧
    ((b.previousBlockHash = none ∧ b.height = 1) ∨
     (0 < i ∧ ∃ p, chain[i - 1]? = some p ∧
        b.previousBlockHash = p.hash ∧ b.height = p.height + 1))

/-- A concrete two-block ledger (genesis plus one claim), used to evaluate
the theorems on closed inputs. -/
def sampleLedger : Blockchain :=
  (_addBlock shaTest 1700000100123
    (_addBlock shaTest 1700000000123 { chain := [], height := -1 }
      (Block.new (.strData "Genesis Block"))).1
    (Block.new (.claim "addr" "star1"))).1

theorem _addBlock_chain (sha : Block → String) (nowMs : Nat) (s : Blockchain)
    (block : Block) :
    (_addBlock sha nowMs s block).1.chain =
      s.chain ++ [(_addBlock sha nowMs s block).2] := rfl

theorem _addBlock_height (sha : Block → String) (nowMs : Nat) (s : Blockchain)
    (block : Block) :
    (_addBlock sha nowMs s block).2.height =
      if s.height = -1 then 1 else s.height + 1 := by
  simp only [_addBlock]
  split <;> rfl

theorem _addBlock_state_height (sha : Block → String) (nowMs : Nat)
    (s : Blockchain) (block : Block) :
    (_addBlock sha nowMs s block).1.height =
      if s.height = -1 then 1 else s.height + 1 := by
  simp only [_addBlock]
  split <;> rfl

theorem _addBlock_prev (sha : Block → String) (nowMs : Nat) (s : Blockchain)
    (block : Block) :
    (_addBlock sha nowMs s block).2.previousBlockHash =
      if s.height = -1 then block.previousBlockHash
      else (s.chain.getLast?).bind (fun b => b.hash) := by
  simp only [_addBlock]
  split <;> rfl

theorem _addBlock_hash_isSome (sha : Block → String) (nowMs : Nat)
    (s : Blockchain) (block : Block) :
    ((_addBlock sha nowMs s block).2.hash).isSome = true := by
  by_cases h : s.height = -1 <;> simp [_addBlock, h]

theorem _addBlock_body (sha : Block → String) (nowMs : Nat) (s : Blockchain)
    (block : Block) :
    (_addBlock sha nowMs s block).2.body = block.body := by
  by_cases h : s.height = -1 <;> simp [_addBlock, h]

theorem _addBlock_time (sha : Block → String) (nowMs : Nat) (s : Blockchain)
    (block : Block) :
    (_addBlock sha nowMs s block).2.time = JsVal.str (msToSecString nowMs) := by
  by_cases h : s.height = -1 <;> simp [_addBlock, h]

theorem _addBlock_hash (sha : Block → String) (nowMs : Nat) (s : Blockchain)
    (block : Block) :
    (_addBlock sha nowMs s block).2.hash =
      some (sha { (_addBlock sha nowMs s block).2 with hash := block.hash }) := by
  by_cases h : s.height = -1 <;> simp [_addBlock, h]

theorem reachable_chainInv {sha : Block → String} {s : Blockchain}
    (h : Reachable sha s) : ChainInv s := by
  induction h with
  | init =>
    refine ⟨fun _ => rfl, fun hh => absurd rfl hh, ?_, ?_⟩
    · intro i b hb; simp at hb
    · intro i b b' hb hb'; simp at hb
  | step nowMs d s hs ih =>
    obtain ⟨ih1, ih2, ih3, ih4⟩ := ih
    set r := _addBlock sha nowMs s (Block.new d) with hr
    have hchain : r.1.chain = s.chain ++ [r.2] := _addBlock_chain ..
    have hsh : r.1.height = if s.height = -1 then 1 else s.height + 1 :=
      _addBlock_state_height ..
    have hbh : r.2.height = if s.height = -1 then 1 else s.height + 1 :=
      _addBlock_height ..
    have hbp : r.2.previousBlockHash =
        if s.height = -1 then (Block.new d).previousBlockHash
        else (s.chain.getLast?).bind (fun b => b.hash) := _addBlock_prev ..
    have hbhash : (r.2.hash).isSome = true := _addBlock_hash_isSome ..
    by_cases hgen : s.height = -1
    · have hempty : s.chain = [] := ih1 hgen
      rw [if_pos hgen] at hsh hbh hbp
      refine ⟨?_, ?_, ?_, ?_⟩
      · intro hcon; rw [hsh] at hcon; exact absurd hcon (by decide)
      · intro _
        constructor
        · rw [hsh, hchain, hempty]; simp
        · rw [hchain]; simp
      · intro i b hb
        rw [hchain, hempty] at hb
        simp only [List.nil_append] at hb
        match i, hb with
        | 0, hb =>
          simp only [List.getElem?_cons_zero, Option.some.injEq] at hb
          subst hb
          exact ⟨by rw [hbh]; rfl, hbhash, fun _ => by rw [hbp]; rfl⟩
        | (i+1), hb => simp at hb
      · intro i b b' hb hb'
        rw [hchain, hempty] at hb'
        simp only [List.nil_append] at hb'
        match i, hb' with
        | 0, hb' => simp at hb'
    · obtain ⟨hlen, hne⟩ := ih2 hgen
      have hpos : 0 < s.chain.length := List.length_pos.mpr hne
      rw [if_neg hgen] at hsh hbh hbp
      have hnewlen : r.1.chain.length = s.chain.length + 1 := by
        rw [hchain]; simp
      refine ⟨?_, ?_, ?_, ?_⟩
      · intro hcon
        rw [hsh, hlen] at hcon
        omega
      · intro _
        constructor
        · rw [hsh, hlen, hnewlen]; push_cast; ring
        · rw [hchain]; simp
      · intro i b hb
        rw [hchain] at hb
        rcases Nat.lt_trichotomy i s.chain.length with hi | hi | hi
        · rw [List.getElem?_append_left hi] at hb
          exact ih3 i b hb
        · subst hi
          rw [List.getElem?_concat_length] at hb
          obtain rfl : b = r.2 := by injection hb.symm
          refine ⟨by rw [hbh, hlen], hbhash, fun h0 => absurd h0 (by omega)⟩
        · rw [List.getElem?_append_right (by omega)] at hb
          have : i - s.chain.length ≥ 1 := by omega
          rw [List.getElem?_eq_none (by simp; omega)] at hb
          exact absurd hb (by simp)
      · intro i b b' hb hb'
        rw [hchain] at hb hb'
        rcases Nat.lt_trichotomy (i + 1) s.chain.length with hi | hi | hi
        · rw [List.getElem?_append_left hi] at hb'
          rw [List.getElem?_append_left (by omega)] at hb
          exact ih4 i b b' hb hb'
        · rw [hi, List.getElem?_concat_length] at hb'
          obtain rfl : b' = r.2 := by injection hb'.symm
          rw [List.getElem?_append_left (by omega)] at hb
          rw [hbp, List.getLast?_eq_getElem?]
          have : s.chain.length - 1 = i := by omega
          rw [this, hb]
          have := (ih3 i b hb).2.1
          exact Option.some_bind ..
        · rw [List.getElem?_append_right (by omega),
              List.getElem?_eq_none (by simp; omega)] at hb'
          exact absurd hb' (by simp)

/-- Claim C2: For every chain built solely through the sealing/append
primitive `_addBlock`: every pair of adjacent Records is linked
(`previousBlockHash` of the later one equals the stored `hash` of the
earlier one, and its height is the earlier height plus 1), and a Record of
the chain has `previousBlockHash = null` and `height = 1` exactly when it is
the Record at index 0 — the genesis Record is the unique such Record. -/
theorem addBlock_chain_linked (sha : Block → String) (s : Blockchain)
    (hreach : Reachable sha s) :
    (∀ (i : Nat) (b b' : Block), s.chain[i]? = some b →
        s.chain[i + 1]? = some b' →
        b'.previousBlockHash = b.hash ∧ b'.height = b.height + 1) ∧
    (∀ (i : Nat) (b : Block), s.chain[i]? = some b →
        ((b.previousBlockHash = none ∧ b.height = 1) ↔ i = 0)) := by
  obtain ⟨-, -, inv3, inv4⟩ := reachable_chainInv hreach
  constructor
  · intro i b b' hb hb'
    refine ⟨inv4 i b b' hb hb', ?_⟩
    have h1 := (inv3 i b hb).1
    have h2 := (inv3 (i + 1) b' hb').1
    rw [h1, h2]; push_cast; ring
  · intro i b hb
    obtain ⟨hh, -, hz⟩ := inv3 i b hb
    constructor
    · rintro ⟨-, hone⟩
      rw [hh] at hone
      omega
    · rintro rfl
      exact ⟨hz rfl, by rw [hh]; rfl⟩

/-- Witness for `addBlock_chain_linked`: on the concrete two-block chain
obtained by sealing a genesis block and then one claim block, the second
block is linked to the first and the first is the unique genesis-shaped
Record. -/
theorem addBlock_chain_linked_witness :
    (let s := (_addBlock shaTest 1700000300123
        (_addBlock shaTest 1700000000123 { chain := [], height := -1 }
          (Block.new (.strData "Genesis Block"))).1
        (Block.new (.claim "addr" "star1"))).1
     ∀ (i : Nat) (b b' : Block), s.chain[i]? = some b →
        s.chain[i + 1]? = some b' →
        b'.previousBlockHash = b.hash ∧ b'.height = b.height + 1) := by
  intro s
  exact (addBlock_chain_linked shaTest s
    (Reachable.step _ _ _ (Reachable.step _ _ _ Reachable.init))).1

/-- Claim C8: A freshly constructed Ledger holds exactly one Record — the
genesis Record carrying the fixed `"Genesis Block"` marker payload, with
height 1 and a null `previousBlockHash` — and the cached ledger height is 1.
The initialization operation is idempotent: invoked on the freshly
constructed ledger again, or on any state whose height is not `-1`, it
performs no operation and returns the state unchanged. -/
theorem mkNew_genesis_and_idempotent (sha : Block → String) (nowMs : Nat) :
    (∃ g, (Blockchain.mkNew sha nowMs).chain = [g] ∧ g.height = 1 ∧
       g.previousBlockHash = none ∧ g.body = .strData "Genesis Block") ∧
    (Blockchain.mkNew sha nowMs).height = 1 ∧
    (∀ nowMs2 : Nat,
       initializeChain sha nowMs2 (Blockchain.mkNew sha nowMs) =
         Blockchain.mkNew sha nowMs) ∧
    (∀ (s2 : Blockchain) (nowMs2 : Nat), s2.height ≠ -1 →
       initializeChain sha nowMs2 s2 = s2) := by
  have hmk : Blockchain.mkNew sha nowMs =
      (_addBlock sha nowMs { chain := [], height := -1 }
        (Block.new (.strData "Genesis Block"))).1 := by
    unfold Blockchain.mkNew initializeChain
    rw [if_pos rfl]
  have hheight : (Blockchain.mkNew sha nowMs).height = 1 := by
    rw [hmk, _addBlock_state_height]
    simp
  refine ⟨?_, hheight, ?_, ?_⟩
  · refine ⟨(_addBlock sha nowMs { chain := [], height := -1 }
        (Block.new (.strData "Genesis Block"))).2, ?_, ?_, ?_, ?_⟩
    · rw [hmk, _addBlock_chain]
      rfl
    · rw [_addBlock_height]
      simp
    · rw [_addBlock_prev]
      simp [Block.new]
    · rw [_addBlock_body]
      simp [Block.new]
  · intro nowMs2
    unfold initializeChain
    rw [if_neg (by rw [hheight]; decide)]
  · intro s2 nowMs2 h2
    unfold initializeChain
    rw [if_neg h2]

/-- Claim C4: Whenever `submitStar` rejects a claim, the ledger state is
returned unchanged (no Record appended, height unchanged); and both failure
causes — an elapsed time at or beyond the acceptance window, or a signature
that does not verify — produce the same single undifferentiated rejection
value (`rej(null)`, modelled as `none`) together with the unchanged state,
so the two causes are not distinguished. -/
theorem submitStar_reject_no_mutation (sha : Block → String)
    (verify : String → String → String → Bool) (nowMs : Nat)
    (s : Blockchain) (address message signature star : String) :
    ((submitStar sha verify nowMs s address message signature star).2 = none →
       submitStar sha verify nowMs s address message signature star =
         (s, none)) ∧
    (∀ mt ct : Int, parseIntJs ((jsSplit ':' message).getD 1 "") = some mt →
       parseIntJs (msToSecString nowMs) = some ct →
       ¬(ct - mt < FIVE_MINUTES_UTC) →
       submitStar sha verify nowMs s address message signature star =
         (s, none)) ∧
    (verify message address signature = false →
       submitStar sha verify nowMs s address message signature star =
         (s, none)) := by
  unfold submitStar
  split
  next mt ct heq1 heq2 =>
    split
    next hcond =>
      refine ⟨fun hc => absurd hc (by simp), ?_, ?_⟩
      · intro mt' ct' hmt' hct' hlt
        have h1 : (some mt : Option Int) = some mt' := heq1.symm.trans hmt'
        have h2 : (some ct : Option Int) = some ct' := heq2.symm.trans hct'
        cases h1; cases h2
        exact absurd hcond.1 hlt
      · intro hv
        exact absurd (hv.symm.trans hcond.2) (by decide)
    next hcond =>
      exact ⟨fun _ => rfl, fun _ _ _ _ _ => rfl, fun _ => rfl⟩
  next h =>
    exact ⟨fun _ => rfl, fun mt ct hmt hct _ => (h mt ct hmt hct).elim,
      fun _ => rfl⟩

/-- Witness for `mkNew_genesis_and_idempotent`: re-initializing a concrete
already-built ledger is a no-op. -/
theorem mkNew_genesis_and_idempotent_witness :
    initializeChain shaTest 1700000555123
        (Blockchain.mkNew shaTest 1700000000123) =
      Blockchain.mkNew shaTest 1700000000123 :=
  (mkNew_genesis_and_idempotent shaTest 1700000000123).2.2.2
    (Blockchain.mkNew shaTest 1700000000123) 1700000555123 (by decide)

/-- Witness for `submitStar_reject_no_mutation`: a concrete rejected call —
the signature verifier refuses — leaves the one-block ledger unchanged and
yields the single rejection value `none`. -/
theorem submitStar_reject_no_mutation_witness :
    submitStar shaTest (fun _ _ _ => false) 1700000100123
        (Blockchain.mkNew shaTest 1700000000123) "addr"
        "addr:1700000000:starRegistry" "sig" "star1" =
      (Blockchain.mkNew shaTest 1700000000123, none) :=
  (submitStar_reject_no_mutation shaTest (fun _ _ _ => false) 1700000100123
      (Blockchain.mkNew shaTest 1700000000123) "addr"
      "addr:1700000000:starRegistry" "sig" "star1").2.2 rfl

/-- Claim C1, refuted (code bug): The claim — a claim submission whose challenge
timestamp is at least 300 seconds old is rejected — is contradicted by the
code: `FIVE_MINUTES_UTC` is `30_000` while every time value in the file is
in seconds, so with its own signature check passing, a submission whose
challenge is exactly 300 seconds old (elapsed `1700000300 - 1700000000 =
300 ≥ 300`) is *accepted* and a new Record is appended.  (The constant's
name and the step-3 comment in the source, "check if the time elapsed is
less than 5 minutes", show the intended bound is 300 seconds.) -/
theorem submitStar_accepts_at_300s :
    ((submitStar shaTest (fun _ _ _ => true) 1700000300123
        (Blockchain.mkNew shaTest 1700000000123) "addr"
        "addr:1700000000:starRegistry" "sig" "star1").2).isSome = true ∧
    (submitStar shaTest (fun _ _ _ => true) 1700000300123
        (Blockchain.mkNew shaTest 1700000000123) "addr"
        "addr:1700000000:starRegistry" "sig" "star1").1.chain.length =
      (Blockchain.mkNew shaTest 1700000000123).chain.length + 1 ∧
    parseIntJs (msToSecString 1700000300123) = some 1700000300 ∧
    parseIntJs ((jsSplit ':' "addr:1700000000:starRegistry").getD 1 "") =
      some 1700000000 ∧
    ¬((1700000300 : Int) - 1700000000 < 300) := by
  refine ⟨?_, ?_, ?_, ?_, by decide⟩ <;> decide

/-- Claim C7, counterexample: The claim — every sealed Record's `time` field
is an integer number of seconds since the epoch — fails on the runtime type
of the field: at the concrete clock reading 1638090052123 ms the sealed
Record's `time` is the *string* `"1638090052"`, not a number. -/
theorem sealed_time_not_a_number :
    ¬ ∃ n : Int, (_addBlock shaTest 1638090052123 { chain := [], height := -1 }
        (Block.new (.strData "x"))).2.time = JsVal.num n := by
  rintro ⟨n, h⟩
  rw [_addBlock_time] at h
  exact JsVal.noConfusion h

/-- Claim C7, amended: Every sealed Record's `time` field is the decimal
*string* representation of the integer number of seconds since the epoch —
the millisecond clock reading with its last three digits removed — assigned
at sealing time.  (Stated for clock readings whose decimal form drops its
last three digits to the decimal form of its quotient by 1000, which is
every reading of at least 1000 ms.) -/
theorem sealed_time_seconds_string (sha : Block → String) (nowMs : Nat)
    (s : Blockchain) (block : Block)
    (hdigits : msToSecString nowMs = Nat.repr (nowMs / 1000)) :
    (_addBlock sha nowMs s block).2.time =
      JsVal.str (Nat.repr (nowMs / 1000)) := by
  rw [_addBlock_time, hdigits]

/-- Witness for `sealed_time_seconds_string` at the clock reading
1638090052123 ms: the sealed `time` is the seconds string. -/
theorem sealed_time_seconds_string_witness :
    (_addBlock shaTest 1638090052123 { chain := [], height := -1 }
        (Block.new (.strData "x"))).2.time =
      JsVal.str (Nat.repr (1638090052123 / 1000)) :=
  sealed_time_seconds_string shaTest 1638090052123
    { chain := [], height := -1 } (Block.new (.strData "x")) (by decide)

/-- Claim C5: For every Record sealed by `_addBlock` from a freshly
constructed block, the stored `hash` is the digest of the Record's other
fields as they stood at seal time, with the `hash` field itself excluded
from the digest input (it is null in the digest input); and the computation
is deterministic: sealing identical field values — same payload, same
predecessor hash, same predecessor height, and a clock reading with the
same seconds string — yields an identical hash, whatever the rest of the
ledger state. -/
theorem sealed_hash_is_digest_of_other_fields (sha : Block → String)
    (nowMs : Nat) (s : Blockchain) (d : BData) :
    ((_addBlock sha nowMs s (Block.new d)).2.hash =
       some (sealDigest sha
         (_addBlock sha nowMs s (Block.new d)).2.height
         (_addBlock sha nowMs s (Block.new d)).2.body
         (_addBlock sha nowMs s (Block.new d)).2.time
         (_addBlock sha nowMs s (Block.new d)).2.previousBlockHash)) ∧
    (∀ (s' : Blockchain) (nowMs' : Nat),
       s'.height = s.height →
       (s'.chain.getLast?).bind (fun x => x.hash) =
         (s.chain.getLast?).bind (fun x => x.hash) →
       msToSecString nowMs' = msToSecString nowMs →
       (_addBlock sha nowMs' s' (Block.new d)).2.hash =
         (_addBlock sha nowMs s (Block.new d)).2.hash) := by
  constructor
  · rw [_addBlock_hash]
    rfl
  · intro s' nowMs' hh hl ht
    by_cases hgen : s.height = -1
    · simp [_addBlock, hgen, hh, ht]
    · simp [_addBlock, hgen, hh, hl, ht, hh ▸ hgen]

/-- Witness for `sealed_hash_is_digest_of_other_fields`: two ledgers with
the same predecessor data but different histories seal the same claim to
the same hash at clock readings with equal seconds strings. -/
theorem sealed_hash_is_digest_of_other_fields_witness :
    (_addBlock shaTest 1700000100999
        { chain := (Blockchain.mkNew shaTest 1700000000123).chain,
          height := 1 }
        (Block.new (.claim "addr" "star1"))).2.hash =
      (_addBlock shaTest 1700000100123
        (Blockchain.mkNew shaTest 1700000000123)
        (Block.new (.claim "addr" "star1"))).2.hash :=
  (sealed_hash_is_digest_of_other_fields shaTest 1700000100123
      (Blockchain.mkNew shaTest 1700000000123) (.claim "addr" "star1")).2
    { chain := (Blockchain.mkNew shaTest 1700000000123).chain, height := 1 }
    1700000100999 (by decide) (by decide) (by decide)

/-- Lemma: `List.find?` returns the first match: a successful search splits the
list into a prefix with no match, the found element, and a suffix. -/
theorem find?_eq_some_first {α : Type} (p : α → Bool) (l : List α) (b : α)
    (h : l.find? p = some b) :
    ∃ l1 l2, l = l1 ++ b :: l2 ∧ p b = true ∧ ∀ x ∈ l1, p x = false := by
  induction l with
  | nil => simp at h
  | cons a as ih =>
    cases hpa : p a with
    | true =>
      rw [List.find?_cons, hpa] at h
      injection h with h
      subst h
      exact ⟨[], as, rfl, hpa, by simp⟩
    | false =>
      rw [List.find?_cons, hpa] at h
      obtain ⟨l1, l2, rfl, hb, hl1⟩ := ih h
      refine ⟨a :: l1, l2, rfl, hb, ?_⟩
      intro x hx
      rcases List.mem_cons.mp hx with rfl | hx
      · exact hpa
      · exact hl1 x hx

/-- Claim C9: `getBlockByHash` and `getBlockByHeight` are linear scans
returning the first Record whose `hash` (respectively `height` — the
Record's height field, not its array index) equals the argument: a `none`
(explicit absent value, not an error) result means no Record of the chain
matches, and a `some b` result means `b` matches and every Record before it
in the chain does not. -/
theorem lookup_linear_scan_first (s : Blockchain) (hsh : String) (ht : Int) :
    (getBlockByHash s hsh = none ↔ ∀ b ∈ s.chain, b.hash ≠ some hsh) ∧
    (∀ b, getBlockByHash s hsh = some b →
       b.hash = some hsh ∧ ∃ l1 l2, s.chain = l1 ++ b :: l2 ∧
         ∀ x ∈ l1, x.hash ≠ some hsh) ∧
    (getBlockByHeight s ht = none ↔ ∀ b ∈ s.chain, b.height ≠ ht) ∧
    (∀ b, getBlockByHeight s ht = some b →
       b.height = ht ∧ ∃ l1 l2, s.chain = l1 ++ b :: l2 ∧
         ∀ x ∈ l1, x.height ≠ ht) := by
  refine ⟨?_, ?_, ?_, ?_⟩
  · rw [getBlockByHash, List.find?_eq_none]
    constructor
    · intro h b hb
      have := h b hb
      simpa using this
    · intro h b hb
      simpa using h b hb
  · intro b hb
    rw [getBlockByHash] at hb
    obtain ⟨l1, l2, hsplit, hpb, hl1⟩ :=
      find?_eq_some_first (fun b => decide (b.hash = some hsh)) s.chain b hb
    refine ⟨by simpa using hpb, l1, l2, hsplit, ?_⟩
    intro x hx
    simpa using hl1 x hx
  · rw [getBlockByHeight, List.find?_eq_none]
    constructor
    · intro h b hb
      simpa using h b hb
    · intro h b hb
      simpa using h b hb
  · intro b hb
    rw [getBlockByHeight] at hb
    obtain ⟨l1, l2, hsplit, hpb, hl1⟩ :=
      find?_eq_some_first (fun b => decide (b.height = ht)) s.chain b hb
    refine ⟨by simpa using hpb, l1, l2, hsplit, ?_⟩
    intro x hx
    simpa using hl1 x hx

/-- Witness for `lookup_linear_scan_first`: on a concrete one-block ledger,
looking up height 1 finds the genesis block, and a miss on an absent hash
resolves to `none`. -/
theorem lookup_linear_scan_first_witness :
    (∃ b, getBlockByHeight (Blockchain.mkNew shaTest 1700000000123) 1 =
        some b ∧ b.height = 1) ∧
    getBlockByHash (Blockchain.mkNew shaTest 1700000000123) "nosuch" =
      none := by
  constructor
  · cases hb : getBlockByHeight (Blockchain.mkNew shaTest 1700000000123) 1 with
    | none => exact absurd hb (by decide)
    | some b =>
      exact ⟨b, rfl,
        ((lookup_linear_scan_first (Blockchain.mkNew shaTest 1700000000123)
          "nosuch" 1).2.2.2 b hb).1⟩
  · exact (lookup_linear_scan_first (Blockchain.mkNew shaTest 1700000000123)
      "nosuch" 1).1.mpr (by decide)

/-- Reduction of the loop body once the block at index `i` is known. -/
theorem blockEntry_some (validateB : Block → Except Unit Bool)
    (chain : List Block) (i : Nat) (cur : Block)
    (hb : chain[i]? = some cur) :
    blockEntry validateB chain i =
      match validateB cur with
      | .error _ => some ⟨cur.hash, false⟩
      | .ok valid =>
        if valid then
          if cur.previousBlockHash = none ∧ cur.height = 1 then none
          else if i = 0 then some ⟨cur.hash, false⟩
          else
            match chain[i - 1]? with
            | some prev =>
              if cur.previousBlockHash ≠ prev.hash ∨
                  cur.height ≠ prev.height + 1 then
                some ⟨cur.hash, false⟩
              else none
            | none => none
        else some ⟨cur.hash, false⟩ := by
  rw [blockEntry, hb]

/-- For an index inside the chain, the loop body pushes no error entry
exactly when the index passes all checks. -/
theorem blockEntry_eq_none_iff (validateB : Block → Except Unit Bool)
    (chain : List Block) (i : Nat) (hi : i < chain.length) :
    blockEntry validateB chain i = none ↔ okAt validateB chain i := by
  have hb : chain[i]? = some chain[i] := List.getElem?_eq_getElem hi
  rw [blockEntry_some validateB chain i chain[i] hb]
  constructor
  · intro h
    cases hv : validateB chain[i] with
    | error e => rw [hv] at h; simp at h
    | ok v =>
      rw [hv] at h
      cases v with
      | false => simp at h
      | true =>
        simp only [if_true] at h
        by_cases hgen : chain[i].previousBlockHash = none ∧ chain[i].height = 1
        · exact ⟨chain[i], hb, hv, Or.inl hgen⟩
        · rw [if_neg hgen] at h
          by_cases hz : i = 0
          · rw [if_pos hz] at h; simp at h
          · rw [if_neg hz] at h
            have hprev : chain[i - 1]? = some chain[i - 1] :=
              List.getElem?_eq_getElem (by omega)
            rw [hprev] at h
            replace h : (if chain[i].previousBlockHash ≠ chain[i - 1].hash ∨
                chain[i].height ≠ chain[i - 1].height + 1 then
                some (ErrorEntry.mk chain[i].hash false) else none) = none := h
            by_cases hlink : chain[i].previousBlockHash ≠ chain[i - 1].hash ∨
                chain[i].height ≠ chain[i - 1].height + 1
            · rw [if_pos hlink] at h; simp at h
            · push_neg at hlink
              exact ⟨chain[i], hb, hv,
                Or.inr ⟨by omega, chain[i - 1], hprev, hlink.1, hlink.2⟩⟩
  · rintro ⟨b, hb', hv, hok⟩
    rw [hb] at hb'
    injection hb' with hb'
    subst hb'
    rw [hv]
    simp only [if_true]
    rcases hok with hgen | ⟨hpos, p, hp, hl1, hl2⟩
    · rw [if_pos hgen]
    · by_cases hgen : chain[i].previousBlockHash = none ∧ chain[i].height = 1
      · rw [if_pos hgen]
      · rw [if_neg hgen, if_neg (by omega), hp]
        show (if chain[i].previousBlockHash ≠ p.hash ∨
            chain[i].height ≠ p.height + 1 then
            some (ErrorEntry.mk chain[i].hash false) else none) = none
        rw [if_neg (by push_neg; exact ⟨hl1, hl2⟩)]

/-- Claim C3: `validateChain` visits every Record and accumulates (never
aborting early, never raising): its result is empty exactly when every
index of the chain passes the per-block validation, the genesis exemption
or the predecessor-link check; a non-genesis-shaped Record whose self-check
returned `true` but whose `previousBlockHash` or `height` disagrees with
its predecessor contributes an error entry; and a Record whose processing
throws (`.error`) contributes an error entry for that Record instead of
failing the whole call. -/
theorem validateChain_exhaustive (validateB : Block → Except Unit Bool)
    (s : Blockchain) :
    (validateChain validateB s = [] ↔
       ∀ i < s.chain.length, okAt validateB s.chain i) ∧
    (∀ (i : Nat) (b p : Block), s.chain[i]? = some b → 0 < i →
       s.chain[i - 1]? = some p → validateB b = .ok true →
       ¬(b.previousBlockHash = none ∧ b.height = 1) →
       (b.previousBlockHash ≠ p.hash ∨ b.height ≠ p.height + 1) →
       ErrorEntry.mk b.hash false ∈ validateChain validateB s) ∧
    (∀ (i : Nat) (b : Block), s.chain[i]? = some b →
       validateB b = .error () →
       ErrorEntry.mk b.hash false ∈ validateChain validateB s) := by
  refine ⟨?_, ?_, ?_⟩
  · rw [validateChain, List.filterMap_eq_nil_iff]
    constructor
    · intro h i hi
      exact (blockEntry_eq_none_iff validateB s.chain i hi).mp
        (h i (List.mem_range.mpr hi))
    · intro h i hi
      have hi' := List.mem_range.mp hi
      exact (blockEntry_eq_none_iff validateB s.chain i hi').mpr (h i hi')
  · intro i b p hb hpos hp hv hgen hlink
    have hi : i < s.chain.length := by
      by_contra hcon
      rw [List.getElem?_eq_none (by omega)] at hb
      exact absurd hb (by simp)
    rw [validateChain, List.mem_filterMap]
    refine ⟨i, List.mem_range.mpr hi, ?_⟩
    rw [blockEntry_some validateB s.chain i b hb, hv]
    simp only [if_true]
    rw [if_neg hgen, if_neg (by omega), hp]
    show (if b.previousBlockHash ≠ p.hash ∨ b.height ≠ p.height + 1 then
        some (ErrorEntry.mk b.hash false) else none) =
      some (ErrorEntry.mk b.hash false)
    rw [if_pos hlink]
  · intro i b hb hv
    have hi : i < s.chain.length := by
      by_contra hcon
      rw [List.getElem?_eq_none (by omega)] at hb
      exact absurd hb (by simp)
    rw [validateChain, List.mem_filterMap]
    refine ⟨i, List.mem_range.mpr hi, ?_⟩
    rw [blockEntry_some validateB s.chain i b hb, hv]

theorem sampleLedger_reachable : Reachable shaTest sampleLedger :=
  Reachable.step _ _ _ (Reachable.step _ _ _ Reachable.init)

/-- Witness for `validateChain_exhaustive`: on the concrete two-block
ledger, a per-block validation that throws on the height-2 block makes
`validateChain` surface an error entry for that block instead of failing. -/
theorem validateChain_exhaustive_witness :
    ∃ b, sampleLedger.chain[1]? = some b ∧
      ErrorEntry.mk b.hash false ∈
        validateChain
          (fun c => if c.height = 2 then .error () else .ok true)
          sampleLedger := by
  cases hb : sampleLedger.chain[1]? with
  | none => exact absurd hb (by decide)
  | some b =>
    have h2 : sampleLedger.chain[1]?.map Block.height = some 2 := by decide
    rw [hb] at h2
    injection h2 with h2
    refine ⟨b, rfl, (validateChain_exhaustive
      (fun c => if c.height = 2 then .error () else .ok true)
      sampleLedger).2.2 1 b hb ?_⟩
    simp [h2]

/-- Lemma: `filterMap` ignores any element mapped to `none`: filtering all
occurrences of such an element out of the list leaves the result
unchanged. -/
theorem filterMap_filter_ne {α β : Type} [DecidableEq α] (f : α → Option β)
    (l : List α) (a : α) (hf : f a = none) :
    l.filterMap f = (l.filter (fun x => x ≠ a)).filterMap f := by
  induction l with
  | nil => rfl
  | cons x xs ih =>
    by_cases hx : x = a
    · subst hx
      simp [List.filterMap_cons, List.filter_cons, hf, ih]
    · simp [List.filterMap_cons, List.filter_cons, hx, ih]

/-- Claim C10: `validateChain` exempts from the predecessor-link check any
Record whose `previousBlockHash` is null and whose height is 1, regardless
of its index: at any index `i` — including `i > 0` — such a Record with a
passing self-check contributes no error entry (its link to the Record at
index `i - 1` is never examined, as no hypothesis about that Record is
needed), and the whole result is unchanged when index `i` is skipped. -/
theorem validateChain_genesis_shaped_exempt
    (validateB : Block → Except Unit Bool) (s : Blockchain) (i : Nat)
    (b : Block) (hb : s.chain[i]? = some b)
    (hprev : b.previousBlockHash = none) (hh : b.height = 1)
    (hv : validateB b = .ok true) :
    blockEntry validateB s.chain i = none ∧
    validateChain validateB s =
      ((List.range s.chain.length).filter (fun j => j ≠ i)).filterMap
        (blockEntry validateB s.chain) := by
  have hnone : blockEntry validateB s.chain i = none := by
    rw [blockEntry_some validateB s.chain i b hb, hv]
    simp only [if_true]
    rw [if_pos ⟨hprev, hh⟩]
  exact ⟨hnone, by
    rw [validateChain]
    exact filterMap_filter_ne (blockEntry validateB s.chain)
      (List.range s.chain.length) i hnone⟩

/-- Witness for `validateChain_genesis_shaped_exempt`: a chain holding the
concrete genesis block twice — the copy sits at index 1 with a
`previousBlockHash` that is null rather than the hash of its predecessor —
produces no error entry at index 1. -/
theorem validateChain_genesis_shaped_exempt_witness :
    blockEntry (fun _ => Except.ok true)
      (Blockchain.chain
        { chain := [(_addBlock shaTest 1700000000123
              { chain := [], height := -1 }
              (Block.new (.strData "Genesis Block"))).2,
            (_addBlock shaTest 1700000000123 { chain := [], height := -1 }
              (Block.new (.strData "Genesis Block"))).2],
          height := 2 }) 1 = none :=
  (validateChain_genesis_shaped_exempt (fun _ => Except.ok true)
    { chain := [(_addBlock shaTest 1700000000123
          { chain := [], height := -1 }
          (Block.new (.strData "Genesis Block"))).2,
        (_addBlock shaTest 1700000000123 { chain := [], height := -1 }
          (Block.new (.strData "Genesis Block"))).2],
      height := 2 } 1
    (_addBlock shaTest 1700000000123 { chain := [], height := -1 }
      (Block.new (.strData "Genesis Block"))).2
    (by decide) (by decide) (by decide) rfl).1

/-- Claim C6: On every ledger state built through the sealing primitive whose
first Record carries a string payload (as every ledger built through the
public operations does — the genesis marker is the only string payload),
`getStarsByWalletAddress a` returns exactly the star values of the Records
whose decoded payload carries `owner = a`, in chain order, with the genesis
Record excluded — i.e. it agrees with the spec's `listStarsByOwner` — and
chain order is ascending height order (heights are strictly increasing
along the chain). -/
theorem getStars_refines_spec (sha : Block → String) (s : Blockchain)
    (a : String) (hreach : Reachable sha s)
    (hgen : ∀ b, s.chain[0]? = some b → ∃ m, b.body = .strData m) :
    getStarsByWalletAddress s a = listStarsByOwnerSpec s a ∧
    s.chain.Pairwise (fun b b' => b.height < b'.height) := by
  constructor
  · rw [getStarsByWalletAddress, listStarsByOwnerSpec]
    cases hc : s.chain with
    | nil => rfl
    | cons g rest =>
      obtain ⟨m, hm⟩ := hgen g (by rw [hc]; simp)
      simp only [List.filterMap_cons, Block.getBData, hm,
        List.drop_succ_cons, List.drop_zero]
  · obtain ⟨-, -, inv3, -⟩ := reachable_chainInv hreach
    rw [List.pairwise_iff_getElem]
    intro i j hi hj hij
    have h1 := (inv3 i _ (List.getElem?_eq_getElem hi)).1
    have h2 := (inv3 j _ (List.getElem?_eq_getElem hj)).1
    rw [h1, h2]
    omega

/-- Witness for `getStars_refines_spec`: on the concrete two-block ledger
the scan agrees with the spec description and returns the single submitted
star of `"addr"`. -/
theorem getStars_refines_spec_witness :
    getStarsByWalletAddress sampleLedger "addr" =
      listStarsByOwnerSpec sampleLedger "addr" ∧
    getStarsByWalletAddress sampleLedger "addr" = ["star1"] := by
  refine ⟨(getStars_refines_spec shaTest sampleLedger "addr"
    sampleLedger_reachable ?_).1, by decide⟩
  intro b hb
  have h0 : sampleLedger.chain[0]?.map Block.body =
      some (BData.strData "Genesis Block") := by decide
  rw [hb] at h0
  injection h0 with h0
  exact ⟨"Genesis Block", h0⟩

end StarRegistry
